import Mathlib

/-!
Verification of the dense row-major matrix engine of `src/graphics/matrix.rs`
(a wireframe-rendering pipeline backend).

Modelling conventions:
* The Rust `f64` entries are modelled as exact rationals (`ℚ`); every
  operation of the module only moves values or combines them by `+` and `*`,
  so the algebraic and structural claims are independent of the number
  representation.
* A Rust panic (a failed `assert!`/`assert_eq!` or an out-of-range index
  or slice) is modelled by `Option`: `none` is a panic, `some` a normal
  return.
* `usize` indices and dimensions are modelled as `ℕ`.
-/

namespace Graphics

/-- Row major rectangular matrix (`struct Matrix` of `graphics/matrix.rs`):
`nrows`, `ncols` and the flat buffer `data`. -/
structure Matrix where
  nrows : ℕ
  ncols : ℕ
  data : List ℚ
deriving DecidableEq, Repr

/-- The documented invariant of the data model: the flat buffer holds exactly
`nrows * ncols` entries. -/
def Wf (m : Matrix) : Prop := m.data.length = m.nrows * m.ncols

instance (m : Matrix) : Decidable (Wf m) := by unfold Wf; infer_instance

/-- Rust `Matrix::index`: row-major flat index `row * ncols + col`. -/
def Matrix.index (m : Matrix) (row col : ℕ) : ℕ := row * m.ncols + col

/-- Rust `Matrix::new`: asserts `nrows * ncols == data.len()` and takes ownership
of the buffer. The failed assertion is the `none` case. -/
def Matrix.new (nrows ncols : ℕ) (data : List ℚ) : Option Matrix :=
  if nrows * ncols = data.length then some ⟨nrows, ncols, data⟩ else none

/-- Rust `Matrix::new_clone_vec`: same validation as `new`, cloning the buffer
(cloning is the identity on immutable Lean lists). -/
def Matrix.new_clone_vec (nrows ncols : ℕ) (data : List ℚ) : Option Matrix :=
  if nrows * ncols = data.length then some ⟨nrows, ncols, data⟩ else none

/-- Rust `Matrix::get`: `if row > self.nrows || col > self.ncols { None } else
{ Some(self.data[self.index(row, col)]) }`. The outer `Option` is the panic
channel of the `self.data[...]` indexing; the inner one is the Rust
`Option<f64>` return value. -/
def Matrix.get (m : Matrix) (row col : ℕ) : Option (Option ℚ) :=
  if m.nrows < row ∨ m.ncols < col then some none
  else (m.data.get? (m.index row col)).map some

/-- Rust `Matrix::set`: asserts `row < nrows && col < ncols`, then writes through
`self.data[i] = data`, which itself panics when the flat index is out of
range of the buffer. -/
def Matrix.set (m : Matrix) (row col : ℕ) (v : ℚ) : Option Matrix :=
  if row < m.nrows ∧ col < m.ncols then
    if m.index row col < m.data.length then
      some { m with data := m.data.set (m.index row col) v }
    else none
  else none

/-- Rust `Matrix::append_row`: asserts `ncols == row.len()`, appends the row to
the flat buffer and increments `nrows`. -/
def Matrix.append_row (m : Matrix) (row : List ℚ) : Option Matrix :=
  if m.ncols = row.length then
    some ⟨m.nrows + 1, m.ncols, m.data ++ row⟩
  else none

/-- Rust `Matrix::append_edge`: asserts the edge vector has length 6, then appends
`edge[0..3]`, `1.0`, `edge[3..6]`, `1.0` and increments `nrows` by 2.
(There is no check of `ncols` in the source.) -/
def Matrix.append_edge (m : Matrix) (edge : List ℚ) : Option Matrix :=
  if edge.length = 6 then
    some ⟨m.nrows + 2, m.ncols,
      m.data ++ (edge.take 3 ++ [1] ++ ((edge.drop 3).take 3 ++ [1]))⟩
  else none

/-- Rust `Matrix::row_iter`: the slice `data[r*ncols .. r*ncols + ncols]`.
For a matrix satisfying `Wf` and `r < nrows` the Rust slice is in range;
`List.take`'s truncation is only reached outside those bounds. -/
def Matrix.row_iter (m : Matrix) (r : ℕ) : List ℚ :=
  (m.data.drop (r * m.ncols)).take m.ncols

/-- The state machine of `Iterator::step_by(n)` (for stride `n ≥ 1`): after
yielding an element the adapter discards the next `n - 1` elements; the
first argument tracks how many elements remain to be discarded. -/
def stepByAux (n : ℕ) : ℕ → List ℚ → List ℚ
  | _, [] => []
  | 0, x :: xs => x :: stepByAux n (n - 1) xs
  | k + 1, _ :: xs => stepByAux n k xs

/-- Rust `Iterator::step_by(n)` (for stride `n ≥ 1`): keeps every `n`-th element
starting with the first. -/
def stepBy (n : ℕ) (l : List ℚ) : List ℚ := stepByAux n 0 l

/-- Rust `Matrix::col_iter`: `data.iter().skip(c).step_by(ncols)`. -/
def Matrix.col_iter (m : Matrix) (c : ℕ) : List ℚ :=
  stepBy m.ncols (m.data.drop c)

/-- Rust `Matrix::index_to_rc`: `(i / ncols, i % ncols)`. -/
def Matrix.index_to_rc (i ncols : ℕ) : ℕ × ℕ := (i / ncols, i % ncols)

/-- The `zip` + `fold(0.0, |sum, (a, b)| sum + a * b)` dot product shared by
`mul` and `transposed_mul`. -/
def dotZip (xs ys : List ℚ) : ℚ :=
  (xs.zip ys).foldl (fun s p => s + p.1 * p.2) 0

/-- Rust `Matrix::mul`: asserts `self.ncols == other.nrows`; fills a
`self.nrows * other.ncols` buffer, entry `i` holding the dot product of
`self`'s row `i / fcols` with `other`'s column `i % fcols`. -/
def Matrix.mul (a b : Matrix) : Option Matrix :=
  if a.ncols = b.nrows then
    some ⟨a.nrows, b.ncols,
      (List.range (a.nrows * b.ncols)).map (fun i =>
        dotZip (a.row_iter (Matrix.index_to_rc i b.ncols).1)
          (b.col_iter (Matrix.index_to_rc i b.ncols).2))⟩
  else none

/-- Rust `Matrix::transposed_mul`: asserts `self.nrows == other.ncols`; the result
buffer is `other.nrows * self.nrows` (the source sets `fcols = self.nrows`),
entry `i` holding the dot product of `self`'s column `i % fcols` with
`other`'s row `i / fcols`. When the loop body runs with `self.ncols = 0`,
Rust's `step_by(0)` panics: that is the inner `none` case. -/
def Matrix.transposed_mul (a b : Matrix) : Option Matrix :=
  if a.nrows = b.ncols then
    if a.ncols = 0 ∧ 0 < b.nrows * a.nrows then none
    else
      some ⟨b.nrows, a.nrows,
        (List.range (b.nrows * a.nrows)).map (fun i =>
          dotZip (a.col_iter (Matrix.index_to_rc i a.nrows).2)
            (b.row_iter (Matrix.index_to_rc i a.nrows).1))⟩
  else none

/-- Rust `Matrix::mul_mut_b`: `*b = a.mul(b)`; the returned matrix is the new
content of `b` (`a` is untouched by the borrow). -/
def Matrix.mul_mut_b (a b : Matrix) : Option Matrix := a.mul b

/-- Rust `Matrix::ident`: starts from a `size × size` zero matrix and `set`s the
diagonal to 1.0 in a loop. -/
def Matrix.ident (size : ℕ) : Option Matrix :=
  (List.range size).foldlM (fun m i => m.set i i 1)
    ⟨size, size, List.replicate (size * size) 0⟩

/-- Rust `Matrix::to_ident`: overwrites every entry in place, putting 1.0 where
`index_to_rc` gives equal row and column indices and 0.0 elsewhere. -/
def Matrix.to_ident (m : Matrix) : Matrix :=
  { m with data := m.data.mapIdx (fun i _ =>
      if (Matrix.index_to_rc i m.ncols).1 = (Matrix.index_to_rc i m.ncols).2
      then 1 else 0) }

/-- Rust `slice::windows(2)` over a collected vector: the list of consecutive
pairs (empty for lists of length at most 1). -/
def windows2 (l : List (ℚ × ℚ)) : List ((ℚ × ℚ) × (ℚ × ℚ)) :=
  l.zip l.tail

/-- Modelled from the spec: in `Matrix::add_parametric` the Parametric
Sampler (`Parametric::points_iter` of `graphics/parametrics.rs`, which is
not under `src/`) is abstracted as the finite ordered sample sequence it
returns, taken here as the parameter `samples`; per the spec it is an
ordered, finite sequence of sample pairs over the unit interval. The loop
body is from the source: for every consecutive window
`(x0, y0), (x1, y1)` it calls `append_edge([x0, y0, z, x1, y1, z])`. -/
def Matrix.add_parametric (m : Matrix) (samples : List (ℚ × ℚ)) (z : ℚ) :
    Option Matrix :=
  (windows2 samples).foldlM
    (fun acc p => acc.append_edge [p.1.1, p.1.2, z, p.2.1, p.2.2, z]) m

/-- Decimal digit string of a natural number (the `{}` rendering of a
`usize` in a Rust format string). -/
def natDigitsStr (n : ℕ) : String :=
  if h : n < 10 then String.singleton (Char.ofNat (48 + n))
  else natDigitsStr (n / 10) ++ String.singleton (Char.ofNat (48 + n % 10))
termination_by n
decreasing_by exact Nat.div_lt_self (by omega) (by omega)

/-- Round to the nearest integer, ties to even (the rounding Rust's float
formatter applies to the exact value of the argument). -/
def roundHalfEven (x : ℚ) : ℤ :=
  let f := Int.floor x
  if x - f < 1 / 2 then f
  else if 1 / 2 < x - f then f + 1
  else if Even f then f else f + 1

/-- Rust `format!("{arg:.2}", ...)`: fixed-point rendering with exactly two
digits after the decimal point. -/
def fmtFixed2 (q : ℚ) : String :=
  let n := roundHalfEven (q * 100)
  let sign : String := if n < 0 then ("-") else ("")
  let a : ℕ := n.natAbs
  sign ++ natDigitsStr (a / 100) ++ "." ++
    (if a % 100 < 10 then ("0") else ("")) ++ natDigitsStr (a % 100)

/-- Rust `impl fmt::Display for Matrix`: the empty one-line message when a
dimension is 0; otherwise a `Matrix (R by C) \x7b` header line, then for
each column offset one indented line accumulating
`write!("{arg:.2} ", d)` over `data.iter().skip(col_offset).step_by(ncols)`,
then a closing `\x7d`. -/
def Matrix.display (m : Matrix) : String :=
  if m.nrows = 0 ∨ m.ncols = 0 then
    "Empty matrix (" ++ natDigitsStr m.nrows ++ " by " ++
      natDigitsStr m.ncols ++ ")"
  else
    ("Matrix (" ++ natDigitsStr m.nrows ++ " by " ++ natDigitsStr m.ncols ++
        ") \x7b\n") ++
      (List.range m.ncols).foldl (fun acc c =>
        acc ++ "  " ++
          ((stepBy m.ncols (m.data.drop c)).foldl
            (fun line d => line ++ fmtFixed2 d ++ " ") "") ++ "\n") "" ++
      "\x7d"

/-- Independent reference transpose, written from the spec's notion of a
transpose (it is not a function of the source module): entry `(r, c)` of
`transposeRef m` is entry `(c, r)` of `m`. -/
def transposeRef (m : Matrix) : Matrix :=
  ⟨m.ncols, m.nrows,
    (List.range (m.ncols * m.nrows)).map (fun i =>
      m.data.getD ((i % m.nrows) * m.ncols + i / m.nrows) 0)⟩

/-- The per-window block of eight scalars that `append_edge` adds to the
buffer inside `add_parametric`. -/
def edgeBlock (z : ℚ) (p : (ℚ × ℚ) × (ℚ × ℚ)) : List ℚ :=
  [p.1.1, p.1.2, z, 1, p.2.1, p.2.2, z, 1]

/-- Number of newline characters of a string. -/
def countNL (s : String) : ℕ := s.data.count (Char.ofNat 10)

/-- Closed form of the buffer that `Matrix::ident` builds. -/
def identData (n : ℕ) : List ℚ :=
  (List.range (n * n)).map (fun i => if i / n = i % n then 1 else 0)

section Helpers

/-! Flat row-major index arithmetic. -/

theorem flat_div (r c C : ℕ) (h : c < C) : (r * C + c) / C = r := by
  rw [Nat.mul_comm r C, Nat.mul_add_div (by omega), Nat.div_eq_of_lt h]
  omega

theorem flat_mod (r c C : ℕ) (h : c < C) : (r * C + c) % C = c := by
  rw [Nat.mul_comm r C, Nat.mul_add_mod, Nat.mod_eq_of_lt h]

theorem flat_lt (r c R C : ℕ) (hr : r < R) (hc : c < C) :
    r * C + c < R * C := by
  have h1 : r * C + c < (r + 1) * C := by
    rw [Nat.succ_mul]; omega
  have h2 : (r + 1) * C ≤ R * C := Nat.mul_le_mul_right C (by omega)
  omega

theorem flat_inj (r c r2 c2 C : ℕ) (hc : c < C) (hc2 : c2 < C)
    (h : r * C + c = r2 * C + c2) : r = r2 ∧ c = c2 := by
  have h1 := flat_div r c C hc
  have h2 := flat_div r2 c2 C hc2
  have h3 := flat_mod r c C hc
  have h4 := flat_mod r2 c2 C hc2
  rw [h] at h1 h3
  exact ⟨h1.symm.trans h2, h3.symm.trans h4⟩

/-! `stepBy` characterization. -/

theorem stepByAux_getElem (n : ℕ) (hn : 1 ≤ n) :
    ∀ (l : List ℚ) (k j : ℕ), (stepByAux n k l)[j]? = l[k + j * n]? := by
  intro l
  induction l with
  | nil =>
    intro k j
    simp [stepByAux]
  | cons x xs ih =>
    intro k j
    cases k with
    | zero =>
      rw [stepByAux]
      cases j with
      | zero => simp
      | succ j =>
        rw [List.getElem?_cons_succ, ih (n - 1) j]
        have he : 0 + (j + 1) * n = (n - 1 + j * n) + 1 := by
          rw [Nat.succ_mul]
          omega
        rw [he, List.getElem?_cons_succ]
    | succ k =>
      rw [stepByAux, ih k j]
      have he : k + 1 + j * n = (k + j * n) + 1 := by omega
      rw [he, List.getElem?_cons_succ]

theorem stepBy_getElem (n : ℕ) (hn : 1 ≤ n) :
    ∀ (l : List ℚ) (k : ℕ), (stepBy n l)[k]? = l[k * n]? := by
  intro l k
  rw [stepBy, stepByAux_getElem n hn l 0 k, Nat.zero_add]

theorem stepByAux_length (n : ℕ) (hn : 1 ≤ n) :
    ∀ (l : List ℚ) (k : ℕ),
      (stepByAux n k l).length = (l.length - k + n - 1) / n := by
  intro l
  induction l with
  | nil =>
    intro k
    simp only [stepByAux, List.length_nil, Nat.zero_sub]
    exact (Nat.div_eq_of_lt (by omega)).symm
  | cons x xs ih =>
    intro k
    cases k with
    | zero =>
      rw [stepByAux, List.length_cons, ih (n - 1), List.length_cons]
      have hR : xs.length + 1 - 0 + n - 1 = xs.length + n := by omega
      rw [hR, Nat.add_div_right _ (by omega)]
      rcases Nat.lt_or_ge xs.length (n - 1) with h | h
      · rw [show xs.length - (n - 1) = 0 from Nat.sub_eq_zero_of_le (by omega)]
        rw [Nat.div_eq_of_lt (by omega), Nat.div_eq_of_lt (by omega)]
      · have h1 : xs.length - (n - 1) + n - 1 = xs.length := by omega
        rw [h1]
    | succ k =>
      rw [stepByAux, ih k, List.length_cons]
      congr 2
      omega

theorem stepBy_length (n : ℕ) (hn : 1 ≤ n) :
    ∀ l : List ℚ, (stepBy n l).length = (l.length + n - 1) / n := by
  intro l
  rw [stepBy, stepByAux_length n hn l 0, Nat.sub_zero]

/-! The dot product as a finite sum. -/

theorem foldl_add_mul (l : List (ℚ × ℚ)) :
    ∀ a : ℚ, l.foldl (fun s p => s + p.1 * p.2) a =
      a + (l.map (fun p => p.1 * p.2)).sum := by
  induction l with
  | nil => intro a; simp
  | cons x xs ih =>
    intro a
    rw [List.foldl_cons, ih, List.map_cons, List.sum_cons]
    ring

theorem dotZip_eq_sum (xs : List ℚ) :
    ∀ ys : List ℚ, dotZip xs ys =
      ∑ k ∈ Finset.range (min xs.length ys.length),
        xs.getD k 0 * ys.getD k 0 := by
  induction xs with
  | nil => intro ys; simp [dotZip]
  | cons x xs ih =>
    intro ys
    cases ys with
    | nil => simp [dotZip]
    | cons y ys =>
      simp only [dotZip, List.zip_cons_cons, List.foldl_cons, foldl_add_mul,
        zero_add, List.length_cons, Nat.succ_min_succ, Finset.sum_range_succ']
      simp only [List.getD_cons_succ, List.getD_cons_zero]
      have hsum : (List.map (fun p => p.1 * p.2) (xs.zip ys)).sum =
          dotZip xs ys := by
        simp only [dotZip]
        rw [foldl_add_mul]
        ring
      rw [hsum, ih, add_comm]

/-! Row and column views of a well-formed matrix. -/

theorem row_iter_getElem (m : Matrix) (r k : ℕ) (hk : k < m.ncols) :
    (m.row_iter r)[k]? = m.data[r * m.ncols + k]? := by
  rw [Matrix.row_iter, List.getElem?_take, if_pos hk, List.getElem?_drop]

theorem row_iter_length (m : Matrix) (hm : Wf m) (r : ℕ) (hr : r < m.nrows) :
    (m.row_iter r).length = m.ncols := by
  rw [Matrix.row_iter, List.length_take, List.length_drop, hm]
  have h2 : (r + 1) * m.ncols ≤ m.nrows * m.ncols :=
    Nat.mul_le_mul_right _ (by omega)
  have h3 : (r + 1) * m.ncols = r * m.ncols + m.ncols := by rw [Nat.succ_mul]
  omega

theorem col_iter_getElem (m : Matrix) (c : ℕ) (hc : c < m.ncols) (k : ℕ) :
    (m.col_iter c)[k]? = m.data[c + k * m.ncols]? := by
  rw [Matrix.col_iter, stepBy_getElem _ (by omega), List.getElem?_drop]

theorem col_iter_length (m : Matrix) (hm : Wf m) (c : ℕ) (hc : c < m.ncols) :
    (m.col_iter c).length = m.nrows := by
  rw [Matrix.col_iter, stepBy_length _ (by omega), List.length_drop, hm]
  have hpos : 0 < m.ncols := by omega
  rcases Nat.eq_zero_or_pos m.nrows with h0 | h0
  · rw [h0, Nat.zero_mul, Nat.zero_sub]
    exact Nat.div_eq_of_lt (by omega)
  · have hge : m.ncols ≤ m.nrows * m.ncols := by
      calc m.ncols = 1 * m.ncols := (one_mul _).symm
      _ ≤ m.nrows * m.ncols := Nat.mul_le_mul_right _ h0
    have heq : m.nrows * m.ncols - c + m.ncols - 1 =
        m.ncols * m.nrows + (m.ncols - 1 - c) := by
      have hcm : m.nrows * m.ncols = m.ncols * m.nrows := Nat.mul_comm _ _
      omega
    rw [heq, Nat.mul_add_div hpos, Nat.div_eq_of_lt (by omega)]
    omega

theorem row_iter_getD (m : Matrix) (r k : ℕ) (hk : k < m.ncols) :
    (m.row_iter r).getD k 0 = m.data.getD (r * m.ncols + k) 0 := by
  rw [List.getD_eq_getElem?_getD, List.getD_eq_getElem?_getD,
    row_iter_getElem m r k hk]

theorem col_iter_getD (m : Matrix) (c : ℕ) (hc : c < m.ncols) (k : ℕ) :
    (m.col_iter c).getD k 0 = m.data.getD (c + k * m.ncols) 0 := by
  rw [List.getD_eq_getElem?_getD, List.getD_eq_getElem?_getD,
    col_iter_getElem m c hc k]

/-! Closed form of `mul` and extensionality of well-formed matrices. -/

theorem mul_spec (a b : Matrix) (ha : Wf a) (hb : Wf b)
    (hab : a.ncols = b.nrows) :
    ∃ M, a.mul b = some M ∧ M.nrows = a.nrows ∧ M.ncols = b.ncols ∧ Wf M ∧
      ∀ r c, r < a.nrows → c < b.ncols →
        M.data.getD (r * b.ncols + c) 0 =
          ∑ k ∈ Finset.range a.ncols,
            a.data.getD (r * a.ncols + k) 0 * b.data.getD (c + k * b.ncols) 0 := by
  refine ⟨⟨a.nrows, b.ncols, (List.range (a.nrows * b.ncols)).map (fun i =>
      dotZip (a.row_iter (Matrix.index_to_rc i b.ncols).1)
        (b.col_iter (Matrix.index_to_rc i b.ncols).2))⟩, ?_, rfl, rfl, ?_, ?_⟩
  · simp only [Matrix.mul, if_pos hab]
  · simp [Wf]
  · intro r c hr hc
    have hlt : r * b.ncols + c < a.nrows * b.ncols := flat_lt r c _ _ hr hc
    rw [List.getD_eq_getElem?_getD, List.getElem?_map, List.getElem?_range hlt]
    simp only [Matrix.index_to_rc, Option.map_some', Option.getD_some]
    rw [flat_div r c _ hc, flat_mod r c _ hc, dotZip_eq_sum,
      row_iter_length a ha r hr, col_iter_length b hb c hc, ← hab, min_self]
    apply Finset.sum_congr rfl
    intro k hk
    rw [Finset.mem_range] at hk
    rw [row_iter_getD a r k hk, col_iter_getD b c hc k]

theorem data_ext (p q : Matrix) (hr : p.nrows = q.nrows)
    (hc : p.ncols = q.ncols) (hp : Wf p) (hq : Wf q)
    (h : ∀ r c, r < p.nrows → c < p.ncols →
      p.data.getD (r * p.ncols + c) 0 = q.data.getD (r * q.ncols + c) 0) :
    p = q := by
  obtain ⟨pr, pc, pd⟩ := p
  obtain ⟨qr, qc, qd⟩ := q
  simp only [Wf] at hp hq
  simp only at hr hc h
  subst hr
  subst hc
  congr 1
  apply List.ext_getElem (by rw [hp, hq])
  intro i h1 h2
  have hpc : 0 < pc := by
    rcases Nat.eq_zero_or_pos pc with hz | hz
    · rw [hp, hz, Nat.mul_zero] at h1
      omega
    · exact hz
  have hrlt : i / pc < pr := by
    rw [Nat.div_lt_iff_lt_mul hpc]
    rw [hp] at h1
    exact h1
  have hclt : i % pc < pc := Nat.mod_lt _ hpc
  have hi : i / pc * pc + i % pc = i := by
    rw [Nat.mul_comm]
    exact Nat.div_add_mod i pc
  have := h (i / pc) (i % pc) hrlt hclt
  rw [hi] at this
  rw [List.getD_eq_getElem _ _ h1, List.getD_eq_getElem _ _ h2] at this
  exact this

/-! Closed form of `transposed_mul` and of the reference transpose. -/

theorem transposed_mul_spec (a b : Matrix) (ha : Wf a) (hb : Wf b)
    (hab : a.nrows = b.ncols)
    (hnz : ¬(a.ncols = 0 ∧ 0 < b.nrows * a.nrows)) :
    ∃ M, a.transposed_mul b = some M ∧ M.nrows = b.nrows ∧
      M.ncols = a.nrows ∧ Wf M ∧
      ∀ r c, r < b.nrows → c < a.nrows → c < a.ncols →
        M.data.getD (r * a.nrows + c) 0 =
          ∑ k ∈ Finset.range a.nrows,
            a.data.getD (c + k * a.ncols) 0 * b.data.getD (r * b.ncols + k) 0 := by
  refine ⟨⟨b.nrows, a.nrows, (List.range (b.nrows * a.nrows)).map (fun i =>
      dotZip (a.col_iter (Matrix.index_to_rc i a.nrows).2)
        (b.row_iter (Matrix.index_to_rc i a.nrows).1))⟩, ?_, rfl, rfl, ?_, ?_⟩
  · simp only [Matrix.transposed_mul, if_pos hab, if_neg hnz]
  · simp [Wf]
  · intro r c hr hc hca
    have hlt : r * a.nrows + c < b.nrows * a.nrows := flat_lt r c _ _ hr hc
    rw [List.getD_eq_getElem?_getD, List.getElem?_map, List.getElem?_range hlt]
    simp only [Matrix.index_to_rc, Option.map_some', Option.getD_some]
    rw [flat_div r c _ hc, flat_mod r c _ hc, dotZip_eq_sum,
      col_iter_length a ha c hca, row_iter_length b hb r hr,
      show min a.nrows b.ncols = a.nrows by omega]
    apply Finset.sum_congr rfl
    intro k hk
    rw [Finset.mem_range] at hk
    rw [col_iter_getD a c hca k, row_iter_getD b r k (by omega)]

theorem transposeRef_nrows (m : Matrix) : (transposeRef m).nrows = m.ncols :=
  rfl

theorem transposeRef_ncols (m : Matrix) : (transposeRef m).ncols = m.nrows :=
  rfl

theorem transposeRef_wf (m : Matrix) : Wf (transposeRef m) := by
  simp [Wf, transposeRef]

theorem transposeRef_getD (m : Matrix) (r c : ℕ) (hr : r < m.ncols)
    (hc : c < m.nrows) :
    (transposeRef m).data.getD (r * m.nrows + c) 0 =
      m.data.getD (c * m.ncols + r) 0 := by
  have hlt : r * m.nrows + c < m.ncols * m.nrows := flat_lt r c _ _ hr hc
  simp only [transposeRef]
  rw [List.getD_eq_getElem?_getD, List.getElem?_map, List.getElem?_range hlt]
  simp only [Option.map_some', Option.getD_some]
  rw [flat_div r c _ hc, flat_mod r c _ hc]

/-! Closed form of `ident`. -/

theorem ident_fold (n : ℕ) : ∀ k, k ≤ n →
    (List.range k).foldlM (fun (m : Matrix) i => m.set i i 1)
        (⟨n, n, List.replicate (n * n) 0⟩ : Matrix) =
      some ⟨n, n, (List.range (n * n)).map
        (fun i => if i / n = i % n ∧ i / n < k then 1 else 0)⟩ := by
  intro k
  induction k with
  | zero =>
    intro _
    simp only [List.range_zero, List.foldlM_nil]
    have hdata : (List.range (n * n)).map
        (fun i => if i / n = i % n ∧ i / n < 0 then (1 : ℚ) else 0) =
        List.replicate (n * n) (0 : ℚ) := by
      apply List.ext_getElem (by simp)
      intro j h1 h2
      simp
    rw [hdata]
    rfl
  | succ k ih =>
    intro hk
    have hkn : k < n := by omega
    rw [List.range_succ, List.foldlM_append, ih (by omega)]
    simp only [List.foldlM_cons, List.foldlM_nil, bind_pure,
      Option.bind_eq_bind, Option.some_bind]
    have hidx : k * n + k < n * n := flat_lt k k n n hkn hkn
    have hlen : ((List.range (n * n)).map
        (fun i => if i / n = i % n ∧ i / n < k then (1 : ℚ) else 0)).length =
        n * n := by simp
    simp only [Matrix.set, Matrix.index]
    rw [if_pos ⟨hkn, hkn⟩, if_pos (by rw [hlen]; exact hidx)]
    congr 2
    apply List.ext_getElem (by simp)
    intro j h1 h2
    rw [List.getElem_set]
    simp only [List.getElem_map, List.getElem_range]
    by_cases hj : k * n + k = j
    · rw [if_pos hj]
      have hdiv : j / n = k := by rw [← hj]; exact flat_div k k n hkn
      have hmod : j % n = k := by rw [← hj]; exact flat_mod k k n hkn
      rw [hdiv, hmod, if_pos ⟨rfl, by omega⟩]
    · rw [if_neg hj]
      have hjlt : j < n * n := by
        have := h1
        simpa using this
      by_cases hd : j / n = j % n
      · have hne : j / n ≠ k := by
          intro hdk
          apply hj
          have hmj : n * (j / n) + j % n = j := Nat.div_add_mod j n
          rw [← hd, hdk] at hmj
          rw [← hmj, Nat.mul_comm]
        rw [hd] at hne
        have hiff : (j % n < k + 1) ↔ (j % n < k) := by omega
        simp [hd, hiff]
      · simp [hd]

theorem ident_eq (n : ℕ) : Matrix.ident n = some ⟨n, n, identData n⟩ := by
  rw [Matrix.ident, ident_fold n n le_rfl]
  congr 2
  apply List.ext_getElem (by simp [identData])
  intro j h1 h2
  simp only [List.getElem_map, List.getElem_range, identData]
  have hjlt : j < n * n := by simpa using h1
  have hpos : 0 < n := by
    rcases Nat.eq_zero_or_pos n with h0 | h0
    · rw [h0] at hjlt
      omega
    · exact h0
  have hdn : j / n < n := by
    rw [Nat.div_lt_iff_lt_mul hpos]
    rw [Nat.mul_comm] at hjlt
    exact hjlt
  have hmod : j % n < n := Nat.mod_lt _ hpos
  by_cases hd : j / n = j % n
  · simp [hd, hmod]
  · simp [hd]

theorem ident_wf (n : ℕ) : Wf (⟨n, n, identData n⟩ : Matrix) := by
  simp [Wf, identData]

theorem identData_getD (n r k : ℕ) (hr : r < n) (hk : k < n) :
    (identData n).getD (r * n + k) 0 = if r = k then (1 : ℚ) else 0 := by
  have hlt : r * n + k < n * n := flat_lt r k n n hr hk
  rw [identData, List.getD_eq_getElem?_getD, List.getElem?_map,
    List.getElem?_range hlt]
  simp only [Option.map_some', Option.getD_some]
  rw [flat_div r k n hk, flat_mod r k n hk]

/-! String helpers for the display contract. -/

theorem join_cons (s : String) (l : List String) :
    String.join (s :: l) = s ++ String.join l := by
  apply String.ext
  simp [String.join_eq, String.data_append]

theorem countNL_append (s t : String) :
    countNL (s ++ t) = countNL s + countNL t := by
  rw [countNL, countNL, countNL, String.data_append, List.count_append]

theorem natDigitsStr_no_nl (n : ℕ) : countNL (natDigitsStr n) = 0 := by
  induction n using natDigitsStr.induct with
  | case1 n h =>
    rw [natDigitsStr, dif_pos h, countNL]
    interval_cases n <;> decide
  | case2 n h ih =>
    rw [natDigitsStr, dif_neg h, countNL_append, ih]
    have h10 : n % 10 < 10 := Nat.mod_lt _ (by omega)
    set r := n % 10 with hr
    rw [Nat.zero_add, countNL]
    interval_cases r <;> decide

theorem fmtFixed2_no_nl (q : ℚ) : countNL (fmtFixed2 q) = 0 := by
  simp only [fmtFixed2]
  simp only [countNL_append]
  rw [natDigitsStr_no_nl, natDigitsStr_no_nl]
  split_ifs <;> decide

theorem foldl_append_eq_join {α : Type} (g : α → String) (l : List α) :
    ∀ s, l.foldl (fun acc c => acc ++ g c) s = s ++ String.join (l.map g) := by
  induction l with
  | nil =>
    intro s
    simp only [List.foldl_nil, List.map_nil]
    apply String.ext
    simp [String.join_eq, String.data_append]
  | cons x xs ih =>
    intro s
    rw [List.foldl_cons, ih, List.map_cons, join_cons, String.append_assoc]

theorem countNL_join_map {α : Type} (g : α → String) (l : List α) :
    countNL (String.join (l.map g)) = (l.map (fun c => countNL (g c))).sum := by
  induction l with
  | nil => rfl
  | cons x xs ih =>
    rw [List.map_cons, join_cons, countNL_append, ih, List.map_cons,
      List.sum_cons]

/-! The edge-appending fold of `add_parametric`. -/

theorem add_parametric_fold :
    ∀ (ws : List ((ℚ × ℚ) × (ℚ × ℚ))) (m : Matrix) (z : ℚ),
    ∃ m2, ws.foldlM
        (fun acc p => acc.append_edge [p.1.1, p.1.2, z, p.2.1, p.2.2, z]) m =
          some m2 ∧
      m2.nrows = m.nrows + 2 * ws.length ∧ m2.ncols = m.ncols ∧
      m2.data = m.data ++ (ws.map (edgeBlock z)).flatten := by
  intro ws
  induction ws with
  | nil =>
    intro m z
    exact ⟨m, rfl, by simp, rfl, by simp⟩
  | cons w ws ih =>
    intro m z
    obtain ⟨m2, h1, h2, h3, h4⟩ :=
      ih ⟨m.nrows + 2, m.ncols, m.data ++ edgeBlock z w⟩ z
    refine ⟨m2, ?_, by rw [h2]; simp; omega, h3, ?_⟩
    · rw [List.foldlM_cons]
      have hstep : (Matrix.append_edge m
          [w.1.1, w.1.2, z, w.2.1, w.2.2, z]) =
          some ⟨m.nrows + 2, m.ncols, m.data ++ edgeBlock z w⟩ := by
        simp only [Matrix.append_edge, List.length_cons, List.length_nil,
          if_true]
        rfl
      rw [hstep, Option.bind_eq_bind, Option.some_bind]
      exact h1
    · rw [h4]
      simp only [List.map_cons, List.flatten_cons]
      rw [List.append_assoc]

end Helpers

/-! ## The claims -/

/-- C4: for well-formed matrices, `mul` fails exactly when
`a.ncols ≠ b.nrows`; on success it returns a row-major `a.nrows × b.ncols`
matrix whose cell `(r, c)` is the dot product of `a`'s row `r` and `b`'s
column `c`; concretely
`mul(Matrix(2,3,[1..6]), Matrix(3,2,[7..12])) = Matrix(2,2,[58,64,139,154])`. -/
theorem claim4_mul (a b : Matrix) (ha : Wf a) (hb : Wf b) :
    (a.mul b = none ↔ a.ncols ≠ b.nrows) ∧
    (a.ncols = b.nrows →
      ∃ M, a.mul b = some M ∧ M.nrows = a.nrows ∧ M.ncols = b.ncols ∧ Wf M ∧
        ∀ r c, r < a.nrows → c < b.ncols →
          M.data.getD (r * b.ncols + c) 0 =
            ∑ k ∈ Finset.range a.ncols,
              a.data.getD (r * a.ncols + k) 0 *
                b.data.getD (c + k * b.ncols) 0) ∧
    Matrix.mul ⟨2, 3, [1, 2, 3, 4, 5, 6]⟩ ⟨3, 2, [7, 8, 9, 10, 11, 12]⟩ =
      some ⟨2, 2, [58, 64, 139, 154]⟩ := by
  refine ⟨?_, mul_spec a b ha hb, ?_⟩
  · by_cases hab : a.ncols = b.nrows
    · simp only [Matrix.mul, if_pos hab]
      simp [hab]
    · simp only [Matrix.mul, if_neg hab]
      simp [hab]
  · norm_num [Matrix.mul, Matrix.index_to_rc, Matrix.row_iter,
      Matrix.col_iter, stepBy, stepByAux, dotZip, List.range_succ]

/-- Witness for C4 at concrete input (hypotheses discharged). -/
theorem claim4_mul_witness :
    Matrix.mul ⟨2, 3, [1, 2, 3, 4, 5, 6]⟩ ⟨3, 2, [7, 8, 9, 10, 11, 12]⟩ =
      some ⟨2, 2, [58, 64, 139, 154]⟩ :=
  (claim4_mul ⟨2, 3, [1, 2, 3, 4, 5, 6]⟩ ⟨3, 2, [7, 8, 9, 10, 11, 12]⟩
    (by decide) (by decide)).2.2

/-- C5: `mul_mut_b(a, b)` replaces `b`'s whole content (dimensions and
buffer) with `a × b` (in that order; `a` is not modified, which the
functional embedding renders by `a` not appearing in the result state);
concretely `mul_mut_b(Matrix(1,3,[3,4,2]), Matrix(3,4,[13,...,3]))` leaves
`b = Matrix(1,4,[83,63,37,75])`, while the reversed order fails. -/
theorem claim5_mul_mut_b (a b : Matrix) (ha : Wf a) (hb : Wf b) :
    Matrix.mul_mut_b a b = a.mul b ∧
    (a.ncols = b.nrows →
      ∃ M, Matrix.mul_mut_b a b = some M ∧ M.nrows = a.nrows ∧
        M.ncols = b.ncols ∧ Wf M ∧
        ∀ r c, r < a.nrows → c < b.ncols →
          M.data.getD (r * b.ncols + c) 0 =
            ∑ k ∈ Finset.range a.ncols,
              a.data.getD (r * a.ncols + k) 0 *
                b.data.getD (c + k * b.ncols) 0) ∧
    Matrix.mul_mut_b ⟨1, 3, [3, 4, 2]⟩
        ⟨3, 4, [13, 9, 7, 15, 8, 7, 4, 6, 6, 4, 0, 3]⟩ =
      some ⟨1, 4, [83, 63, 37, 75]⟩ ∧
    Matrix.mul_mut_b ⟨3, 4, [13, 9, 7, 15, 8, 7, 4, 6, 6, 4, 0, 3]⟩
        ⟨1, 3, [3, 4, 2]⟩ = none := by
  refine ⟨rfl, mul_spec a b ha hb, ?_, ?_⟩
  · norm_num [Matrix.mul_mut_b, Matrix.mul, Matrix.index_to_rc,
      Matrix.row_iter, Matrix.col_iter, stepBy, stepByAux, dotZip,
      List.range_succ]
  · norm_num [Matrix.mul_mut_b, Matrix.mul]

/-- Witness for C5 at concrete input (hypotheses discharged). -/
theorem claim5_mul_mut_b_witness :
    Matrix.mul_mut_b ⟨1, 3, [3, 4, 2]⟩
        ⟨3, 4, [13, 9, 7, 15, 8, 7, 4, 6, 6, 4, 0, 3]⟩ =
      some ⟨1, 4, [83, 63, 37, 75]⟩ :=
  (claim5_mul_mut_b ⟨1, 3, [3, 4, 2]⟩
    ⟨3, 4, [13, 9, 7, 15, 8, 7, 4, 6, 6, 4, 0, 3]⟩
    (by decide) (by decide)).2.2.1

/-- C7: on a 4-column matrix, `append_edge` fails exactly when the input
does not have exactly 6 scalars; on `[x0,y0,z0,x1,y1,z1]` it appends
`x0,y0,z0,1` then `x1,y1,z1,1`, increments `nrows` by exactly 2 and keeps
the previously stored buffer as an unchanged prefix; concretely
`append_edge([1,2,4,5,6,7])` on the empty `0×4` matrix gives
`Matrix(2,4,[1,2,4,1,5,6,7,1])`. -/
theorem claim7_append_edge (m : Matrix) (e : List ℚ) (h4 : m.ncols = 4) :
    (m.append_edge e = none ↔ e.length ≠ 6) ∧
    (∀ x0 y0 z0 x1 y1 z1, e = [x0, y0, z0, x1, y1, z1] →
      m.append_edge e = some ⟨m.nrows + 2, m.ncols,
        m.data ++ [x0, y0, z0, 1, x1, y1, z1, 1]⟩) ∧
    (∀ m2, m.append_edge e = some m2 → m2.nrows = m.nrows + 2 ∧
      m2.ncols = m.ncols ∧ m2.data.take m.data.length = m.data) ∧
    Matrix.append_edge ⟨0, 4, []⟩ [1, 2, 4, 5, 6, 7] =
      some ⟨2, 4, [1, 2, 4, 1, 5, 6, 7, 1]⟩ := by
  refine ⟨?_, ?_, ?_, by decide⟩
  · by_cases h6 : e.length = 6
    · simp [Matrix.append_edge, h6]
    · simp [Matrix.append_edge, h6]
  · intro x0 y0 z0 x1 y1 z1 he
    subst he
    simp only [Matrix.append_edge, List.length_cons, List.length_nil,
      if_true]
    rfl
  · intro m2 hm2
    simp only [Matrix.append_edge] at hm2
    by_cases h6 : e.length = 6
    · rw [if_pos h6] at hm2
      obtain rfl := Option.some_injective _ hm2
      exact ⟨rfl, rfl, List.take_left _ _⟩
    · rw [if_neg h6] at hm2
      exact Option.noConfusion hm2

/-- Witness for C7 at concrete input (hypotheses discharged). -/
theorem claim7_append_edge_witness :
    Matrix.append_edge ⟨0, 4, []⟩ [1, 2, 4, 5, 6, 7] =
      some ⟨2, 4, [1, 2, 4, 1, 5, 6, 7, 1]⟩ :=
  (claim7_append_edge ⟨0, 4, []⟩ [1, 2, 4, 5, 6, 7] rfl).2.2.2

/-- C8: `add_parametric` with a sample sequence of length N appends one
edge `[x0,y0,z,x1,y1,z]` (two homogeneous rows) per consecutive pair of
samples: exactly `2*(N-1)` new rows when `N > 1`, and no change at all
when `N ≤ 1`. -/
theorem claim8_add_parametric (m : Matrix) (samples : List (ℚ × ℚ))
    (z : ℚ) :
    ∃ m2, m.add_parametric samples z = some m2 ∧
      m2.nrows = m.nrows + 2 * (samples.length - 1) ∧
      m2.ncols = m.ncols ∧
      m2.data = m.data ++ ((windows2 samples).map (edgeBlock z)).flatten ∧
      (samples.length ≤ 1 → m2 = m) := by
  have hwl : (windows2 samples).length = samples.length - 1 := by
    rw [windows2, List.length_zip, List.length_tail]
    omega
  obtain ⟨m2, h1, h2, h3, h4⟩ := add_parametric_fold (windows2 samples) m z
  refine ⟨m2, h1, by rw [h2, hwl], h3, h4, ?_⟩
  intro hle
  have hw : windows2 samples = [] :=
    List.length_eq_zero.mp (by rw [hwl]; omega)
  rw [hw, List.foldlM_nil] at h1
  exact (Option.some_injective _ h1).symm

/-- Witness for C8 at concrete input: two samples yield one edge (two new
rows), derived by applying the claim theorem. -/
theorem claim8_add_parametric_witness :
    Matrix.add_parametric ⟨0, 4, []⟩ [(1, 2), (3, 4)] 9 =
      some ⟨2, 4, [1, 2, 9, 1, 3, 4, 9, 1]⟩ := by
  obtain ⟨m2, h1, h2, h3, h4, -⟩ :=
    claim8_add_parametric ⟨0, 4, []⟩ [(1, 2), (3, 4)] 9
  rw [h1]
  obtain ⟨r2, c2, d2⟩ := m2
  simp only [windows2, edgeBlock, List.tail_cons, List.zip_cons_cons,
    List.zip_nil_right, List.map_cons, List.map_nil, List.flatten_cons,
    List.flatten_nil, List.append_nil, List.nil_append, List.length_cons,
    List.length_nil] at h2 h3 h4
  subst h2
  subst h3
  subst h4
  rfl

/-- C10: an in-bounds `set(r, c, v)` on a well-formed matrix succeeds and
changes only cell `(r, c)`: dimensions, buffer length and every other
position are unchanged, and `get(r, c)` then returns `v`. -/
theorem claim10_set_frame (m : Matrix) (r c : ℕ) (v : ℚ) (hm : Wf m)
    (hr : r < m.nrows) (hc : c < m.ncols) :
    ∃ m2, m.set r c v = some m2 ∧ m2.nrows = m.nrows ∧ m2.ncols = m.ncols ∧
      m2.data.length = m.data.length ∧
      m2.get r c = some (some v) ∧
      (∀ j, j ≠ m.index r c → m2.data[j]? = m.data[j]?) ∧
      (∀ r2 c2, r2 < m.nrows → c2 < m.ncols → (r2, c2) ≠ (r, c) →
        m2.get r2 c2 = m.get r2 c2) := by
  have hidx : r * m.ncols + c < m.data.length := by
    rw [hm]
    exact flat_lt r c _ _ hr hc
  refine ⟨⟨m.nrows, m.ncols, m.data.set (r * m.ncols + c) v⟩, ?_, rfl, rfl,
    ?_, ?_, ?_, ?_⟩
  · rw [Matrix.set, if_pos ⟨hr, hc⟩]
    rw [show m.index r c = r * m.ncols + c from rfl, if_pos hidx]
  · exact List.length_set _ _ _
  · rw [Matrix.get]
    dsimp only [Matrix.index]
    rw [if_neg (by omega), List.get?_eq_getElem?, List.getElem?_set,
      if_pos rfl, if_pos hidx]
    rfl
  · intro j hj
    rw [show m.index r c = r * m.ncols + c from rfl] at hj
    dsimp only
    rw [List.getElem?_set, if_neg (Ne.symm hj)]
  · intro r2 c2 hr2 hc2 hne
    have hne2 : r * m.ncols + c ≠ r2 * m.ncols + c2 := by
      intro heq
      obtain ⟨he1, he2⟩ := flat_inj r c r2 c2 m.ncols hc hc2 heq
      exact hne (by rw [he1, he2])
    rw [Matrix.get, Matrix.get]
    dsimp only [Matrix.index]
    rw [if_neg (by omega), if_neg (by omega), List.get?_eq_getElem?,
      List.get?_eq_getElem?, List.getElem?_set, if_neg hne2]

/-- Witness for C10 at concrete input (hypotheses discharged). -/
theorem claim10_set_frame_witness :
    ∃ m2, Matrix.set ⟨2, 2, [1, 2, 3, 4]⟩ 1 0 9 = some m2 ∧
      m2.nrows = 2 ∧ m2.ncols = 2 ∧ m2.data.length = 4 ∧
      m2.get 1 0 = some (some 9) := by
  obtain ⟨m2, h1, h2, h3, h4, h5, _⟩ :=
    claim10_set_frame ⟨2, 2, [1, 2, 3, 4]⟩ 1 0 9 (by decide) (by decide)
      (by decide)
  exact ⟨m2, h1, h2, h3, h4, h5⟩

/-- C1 counterexample: on the 2×2 matrix `[1,2,3,4]`, `get(0, 2)` has
`col == ncols` yet returns the stored value at flat offset 2 — the element
at `(1, 0)` — instead of the absent signal, and `get(2, 0)` with
`row == nrows` panics on the buffer index (modelled by the outer `none`)
instead of returning the absent signal; so `get` neither treats
`col == ncols` as out of bounds nor never aborts. -/
theorem claim1_get_counterexample :
    Matrix.get ⟨2, 2, [1, 2, 3, 4]⟩ 0 2 = some (some 3) ∧
    Matrix.get ⟨2, 2, [1, 2, 3, 4]⟩ 2 0 = none := by decide

/-- C1 amended: `get`'s bounds check uses `>` rather than `>=`: it returns
the stored value when both indices are strictly in bounds and the absent
signal (`None`) exactly when `row > nrows` or `col > ncols`; on the
boundary the check passes and the raw flat offset `row*ncols + col` is
read, so `row == nrows` always panics, and `col == ncols` either panics
(`row == nrows - 1`) or silently returns the element at `(row+1, 0)`. -/
theorem claim1_get_amended (m : Matrix) (r c : ℕ) (hm : Wf m) :
    (r < m.nrows → c < m.ncols →
      m.get r c = some (some (m.data.getD (r * m.ncols + c) 0))) ∧
    (m.nrows < r ∨ m.ncols < c → m.get r c = some none) ∧
    (r = m.nrows → c ≤ m.ncols → m.get r c = none) ∧
    (c = m.ncols → 0 < m.ncols → r + 1 < m.nrows →
      m.get r c = some (some (m.data.getD ((r + 1) * m.ncols) 0))) ∧
    (c = m.ncols → r + 1 = m.nrows → m.get r c = none) := by
  refine ⟨?_, ?_, ?_, ?_, ?_⟩
  · intro hr hc
    have hlt : r * m.ncols + c < m.data.length := by
      rw [hm]
      exact flat_lt r c _ _ hr hc
    rw [Matrix.get, if_neg (by omega)]
    dsimp only [Matrix.index]
    rw [List.get?_eq_getElem?, List.getElem?_eq_getElem hlt,
      List.getD_eq_getElem _ _ hlt]
    rfl
  · intro h
    rw [Matrix.get, if_pos (by omega)]
  · intro hr hc
    subst hr
    rw [Matrix.get, if_neg (by omega)]
    dsimp only [Matrix.index]
    rw [List.get?_eq_getElem?, List.getElem?_eq_none (by rw [hm]; omega)]
    rfl
  · intro hc hpos hr
    subst hc
    have hidx : r * m.ncols + m.ncols = (r + 1) * m.ncols := by
      rw [Nat.succ_mul]
    have hlt : (r + 1) * m.ncols < m.data.length := by
      rw [hm]
      have := flat_lt (r + 1) 0 m.nrows m.ncols (by omega) hpos
      omega
    rw [Matrix.get, if_neg (by omega)]
    dsimp only [Matrix.index]
    rw [hidx, List.get?_eq_getElem?, List.getElem?_eq_getElem hlt,
      List.getD_eq_getElem _ _ hlt]
    rfl
  · intro hc hr
    subst hc
    rw [Matrix.get, if_neg (by omega)]
    dsimp only [Matrix.index]
    have hge : m.data.length ≤ r * m.ncols + m.ncols := by
      rw [hm, ← hr, Nat.succ_mul]
    rw [List.get?_eq_getElem?, List.getElem?_eq_none hge]
    rfl

/-- Witness for C1 at concrete input (hypotheses discharged). -/
theorem claim1_get_witness :
    Matrix.get ⟨2, 2, [1, 2, 3, 4]⟩ 1 1 = some (some 4) := by
  have h := (claim1_get_amended ⟨2, 2, [1, 2, 3, 4]⟩ 1 1 (by decide)).1
    (by decide) (by decide)
  simpa using h

/-- C2 counterexample: `transposed_mul` gives a `B.nrows × A.nrows` result
(the source sets `fcols = self.nrows`, not `self.ncols`): on
`A = Matrix(1,2,[5,6])`, `B = Matrix(2,1,[7,8])` it returns a 2×1 matrix
although the claim promises `A.ncols = 2` columns; and on square inputs
`A = Matrix(2,2,[1,2,3,4])`, `B = Matrix(2,2,[0,1,0,0])` its value
`Matrix(2,2,[3,4,0,0])` differs from
`multiply(transpose(A), transpose(B)) = Matrix(2,2,[3,0,4,0])`. -/
theorem claim2_transposed_mul_counterexample :
    Matrix.transposed_mul ⟨1, 2, [5, 6]⟩ ⟨2, 1, [7, 8]⟩ =
      some ⟨2, 1, [35, 40]⟩ ∧
    Matrix.transposed_mul ⟨2, 2, [1, 2, 3, 4]⟩ ⟨2, 2, [0, 1, 0, 0]⟩ =
      some ⟨2, 2, [3, 4, 0, 0]⟩ ∧
    Matrix.mul (transposeRef ⟨2, 2, [1, 2, 3, 4]⟩)
        (transposeRef ⟨2, 2, [0, 1, 0, 0]⟩) = some ⟨2, 2, [3, 0, 4, 0]⟩ ∧
    (some (⟨2, 2, [3, 4, 0, 0]⟩ : Matrix) ≠
      some (⟨2, 2, [3, 0, 4, 0]⟩ : Matrix)) := by
  refine ⟨?_, ?_, ?_, by decide⟩ <;>
    norm_num [Matrix.mul, Matrix.transposed_mul, transposeRef,
      Matrix.index_to_rc, Matrix.row_iter, Matrix.col_iter, stepBy,
      stepByAux, dotZip, List.range_succ]

/-- C2 amended: `transposed_mul(A, B)` fails exactly when
`A.nrows ≠ B.ncols`, or when `A.ncols = 0` while the output is nonempty
(Rust's `step_by(0)` panic); on success the result has `B.nrows` rows and
`A.nrows` (not `A.ncols`) columns, its cell `(r, c)` for `c < A.ncols`
being the dot product of `A`'s column `c` and `B`'s row `r`; and for
square `A` it equals the transpose of
`multiply(transposeRef A, transposeRef B)` — i.e. it computes `(AᵀBᵀ)ᵀ`,
not `AᵀBᵀ`. -/
theorem claim2_transposed_mul_amended (a b : Matrix) (ha : Wf a)
    (hb : Wf b) :
    (a.transposed_mul b = none ↔
      (a.nrows ≠ b.ncols ∨ (a.ncols = 0 ∧ 0 < b.nrows * a.nrows))) ∧
    (a.nrows = b.ncols → ¬(a.ncols = 0 ∧ 0 < b.nrows * a.nrows) →
      ∃ M, a.transposed_mul b = some M ∧ M.nrows = b.nrows ∧
        M.ncols = a.nrows ∧ Wf M ∧
        ∀ r c, r < b.nrows → c < a.nrows → c < a.ncols →
          M.data.getD (r * a.nrows + c) 0 =
            ∑ k ∈ Finset.range a.nrows,
              a.data.getD (c + k * a.ncols) 0 *
                b.data.getD (r * b.ncols + k) 0) ∧
    (a.nrows = b.ncols → a.ncols = a.nrows →
      ∃ P, (transposeRef a).mul (transposeRef b) = some P ∧
        a.transposed_mul b = some (transposeRef P)) := by
  refine ⟨?_, transposed_mul_spec a b ha hb, ?_⟩
  · simp only [Matrix.transposed_mul]
    by_cases hab : a.nrows = b.ncols
    · rw [if_pos hab]
      by_cases hz : a.ncols = 0 ∧ 0 < b.nrows * a.nrows
      · rw [if_pos hz]
        exact ⟨fun _ => Or.inr hz, fun _ => rfl⟩
      · rw [if_neg hz]
        constructor
        · intro h
          exact Option.noConfusion h
        · rintro (h | h)
          · exact absurd hab h
          · exact absurd h hz
    · rw [if_neg hab]
      exact ⟨fun _ => Or.inl hab, fun _ => rfl⟩
  · intro hab hsq
    have hnz : ¬(a.ncols = 0 ∧ 0 < b.nrows * a.nrows) := by
      rintro ⟨h0, hpos⟩
      rw [hsq] at h0
      rw [h0, Nat.mul_zero] at hpos
      omega
    obtain ⟨M, hM, hMr, hMc, hMw, hMcell⟩ :=
      transposed_mul_spec a b ha hb hab hnz
    obtain ⟨P, hP, hPr, hPc, hPw, hPcell⟩ :=
      mul_spec (transposeRef a) (transposeRef b) (transposeRef_wf a)
        (transposeRef_wf b) hab
    rw [transposeRef_nrows] at hPr
    rw [transposeRef_ncols] at hPc
    simp only [transposeRef_nrows, transposeRef_ncols] at hPcell
    refine ⟨P, hP, ?_⟩
    rw [hM]
    congr 1
    have hdr : M.nrows = (transposeRef P).nrows := by
      rw [hMr, transposeRef_nrows, hPc]
    have hdc : M.ncols = (transposeRef P).ncols := by
      rw [hMc, transposeRef_ncols, hPr]
      exact hsq.symm
    apply data_ext M (transposeRef P) hdr hdc hMw (transposeRef_wf P)
    intro r c hr hc
    rw [hMr] at hr
    rw [hMc] at hc
    have hca : c < a.ncols := by omega
    have hrP : r < P.ncols := by omega
    have hcP : c < P.nrows := by omega
    rw [hMc, hMcell r c hr hc hca, transposeRef_ncols,
      transposeRef_getD P r c hrP hcP, hPc, hPcell c r hca hr]
    apply Finset.sum_congr rfl
    intro k hk
    rw [Finset.mem_range] at hk
    rw [transposeRef_getD a c k hca hk,
      show r + k * b.nrows = k * b.nrows + r from Nat.add_comm _ _,
      transposeRef_getD b k r (by omega) hr, Nat.add_comm c (k * a.ncols)]

/-- Witness for C2 at concrete input (hypotheses discharged). -/
theorem claim2_transposed_mul_witness :
    Matrix.transposed_mul ⟨2, 2, [1, 2, 3, 4]⟩ ⟨2, 2, [0, 1, 0, 0]⟩ =
      some (transposeRef ⟨2, 2, [3, 0, 4, 0]⟩) := by
  obtain ⟨P, hP, hM⟩ :=
    (claim2_transposed_mul_amended ⟨2, 2, [1, 2, 3, 4]⟩
      ⟨2, 2, [0, 1, 0, 0]⟩ (by decide) (by decide)).2.2 rfl rfl
  have hPval : P = ⟨2, 2, [3, 0, 4, 0]⟩ := by
    have hconc : Matrix.mul (transposeRef ⟨2, 2, [1, 2, 3, 4]⟩)
        (transposeRef ⟨2, 2, [0, 1, 0, 0]⟩) = some ⟨2, 2, [3, 0, 4, 0]⟩ := by
      norm_num [Matrix.mul, transposeRef, Matrix.index_to_rc,
        Matrix.row_iter, Matrix.col_iter, stepBy, stepByAux, dotZip,
        List.range_succ]
    rw [hP] at hconc
    exact Option.some_injective _ hconc
  rw [← hPval]
  exact hM

/-- C3 counterexample: `append_edge` performs no check of `ncols`: on an
empty 0×3 matrix it succeeds and leaves `data.len() = 8 ≠ 2*3`, silently
breaking the `data.len() == nrows * ncols` invariant instead of failing
loudly. -/
theorem claim3_invariant_counterexample :
    Matrix.append_edge ⟨0, 3, []⟩ [1, 2, 3, 4, 5, 6] =
      some ⟨2, 3, [1, 2, 3, 1, 4, 5, 6, 1]⟩ ∧
    ¬ Wf (⟨2, 3, [1, 2, 3, 1, 4, 5, 6, 1]⟩ : Matrix) := by decide

/-- C3 amended: `data.len() == nrows * ncols` holds after both
constructors (which fail fast exactly on a dimension mismatch) and after
`set`, `append_row`, `to_ident`, `mul`, `mul_mut_b` and `ident`;
`append_edge` preserves it exactly when `ncols = 4` — it performs no
`ncols` check, so on any other column count a 6-scalar edge is appended
successfully and silently breaks the invariant. -/
theorem claim3_invariant_amended :
    (∀ r c d, (Matrix.new r c d).isSome ↔ r * c = d.length) ∧
    (∀ r c d m, Matrix.new r c d = some m → Wf m) ∧
    (∀ r c d m, Matrix.new_clone_vec r c d = some m → Wf m) ∧
    (∀ m r c v m2, Wf m → Matrix.set m r c v = some m2 → Wf m2) ∧
    (∀ m row m2, Wf m → Matrix.append_row m row = some m2 → Wf m2) ∧
    (∀ m, Wf m → Wf m.to_ident) ∧
    (∀ n I, Matrix.ident n = some I → Wf I) ∧
    (∀ a b M, Matrix.mul a b = some M → Wf M) ∧
    (∀ a b M, Matrix.mul_mut_b a b = some M → Wf M) ∧
    (∀ m e m2, Wf m → m.ncols = 4 → Matrix.append_edge m e = some m2 →
      Wf m2) ∧
    (∀ m e m2, Wf m → m.ncols ≠ 4 → Matrix.append_edge m e = some m2 →
      ¬ Wf m2) := by
  have hedge : ∀ (m : Matrix) (e : List ℚ) (m2 : Matrix),
      Matrix.append_edge m e = some m2 →
      m2.nrows = m.nrows + 2 ∧ m2.ncols = m.ncols ∧
        m2.data.length = m.data.length + 8 := by
    intro m e m2 h
    simp only [Matrix.append_edge] at h
    by_cases h6 : e.length = 6
    · rw [if_pos h6] at h
      obtain rfl := Option.some_injective _ h
      refine ⟨rfl, rfl, ?_⟩
      simp [h6, min_def]
    · rw [if_neg h6] at h
      exact Option.noConfusion h
  have hmul : ∀ a b M, Matrix.mul a b = some M → Wf M := by
    intro a b M h
    simp only [Matrix.mul] at h
    by_cases hab : a.ncols = b.nrows
    · rw [if_pos hab] at h
      obtain rfl := Option.some_injective _ h
      simp [Wf]
    · rw [if_neg hab] at h
      exact Option.noConfusion h
  refine ⟨?_, ?_, ?_, ?_, ?_, ?_, ?_, hmul, hmul, ?_, ?_⟩
  · intro r c d
    by_cases h : r * c = d.length
    · simp [Matrix.new, h]
    · simp [Matrix.new, h]
  · intro r c d m h
    simp only [Matrix.new] at h
    by_cases hrc : r * c = d.length
    · rw [if_pos hrc] at h
      obtain rfl := Option.some_injective _ h
      exact hrc.symm
    · rw [if_neg hrc] at h
      exact Option.noConfusion h
  · intro r c d m h
    simp only [Matrix.new_clone_vec] at h
    by_cases hrc : r * c = d.length
    · rw [if_pos hrc] at h
      obtain rfl := Option.some_injective _ h
      exact hrc.symm
    · rw [if_neg hrc] at h
      exact Option.noConfusion h
  · intro m r c v m2 hm h
    simp only [Matrix.set] at h
    by_cases hb : r < m.nrows ∧ c < m.ncols
    · rw [if_pos hb] at h
      by_cases hi : m.index r c < m.data.length
      · rw [if_pos hi] at h
        obtain rfl := Option.some_injective _ h
        rw [Wf, List.length_set]
        exact hm
      · rw [if_neg hi] at h
        exact Option.noConfusion h
    · rw [if_neg hb] at h
      exact Option.noConfusion h
  · intro m row m2 hm h
    simp only [Matrix.append_row] at h
    by_cases hl : m.ncols = row.length
    · rw [if_pos hl] at h
      obtain rfl := Option.some_injective _ h
      rw [Wf] at hm ⊢
      simp only [List.length_append, Nat.succ_mul]
      omega
    · rw [if_neg hl] at h
      exact Option.noConfusion h
  · intro m hm
    rw [Wf] at hm ⊢
    rw [Matrix.to_ident] at *
    simpa using hm
  · intro n I h
    rw [ident_eq] at h
    obtain rfl := Option.some_injective _ h
    exact ident_wf n
  · intro m e m2 hm h4 h
    obtain ⟨h1, h2, h3⟩ := hedge m e m2 h
    rw [Wf] at hm ⊢
    rw [h1, h2, h3, hm, h4]
    ring
  · intro m e m2 hm h4 h
    obtain ⟨h1, h2, h3⟩ := hedge m e m2 h
    rw [Wf] at hm ⊢
    rw [h1, h2, h3, hm]
    have hx : (m.nrows + 2) * m.ncols = m.nrows * m.ncols + 2 * m.ncols := by
      ring
    omega

/-- Witness for C3 at concrete input (hypotheses discharged). -/
theorem claim3_invariant_witness :
    ¬ Wf (⟨2, 3, [1, 2, 3, 1, 4, 5, 6, 1]⟩ : Matrix) :=
  claim3_invariant_amended.2.2.2.2.2.2.2.2.2.2 ⟨0, 3, []⟩ [1, 2, 3, 4, 5, 6]
    ⟨2, 3, [1, 2, 3, 1, 4, 5, 6, 1]⟩ (by decide) (by decide) (by decide)

/-- C6: `ident(n)` is the `n × n` matrix with 1.0 on the diagonal and 0.0
elsewhere, and it is a two-sided multiplicative identity: for every
well-formed matrix `M` of compatible dimensions, `mul(ident n, M)` and
`mul(M, ident n)` both return `M` itself (exactly — the arithmetic is
modelled by exact rationals, so the "floating tolerance" is 0). -/
theorem claim6_ident (n : ℕ) (M : Matrix) (hM : Wf M) :
    (Matrix.ident n = some ⟨n, n, identData n⟩) ∧
    (∀ r c, r < n → c < n →
      (identData n).getD (r * n + c) 0 = if r = c then (1 : ℚ) else 0) ∧
    (M.nrows = n → Matrix.mul ⟨n, n, identData n⟩ M = some M) ∧
    (M.ncols = n → Matrix.mul M ⟨n, n, identData n⟩ = some M) := by
  refine ⟨ident_eq n, fun r c hr hc => identData_getD n r c hr hc, ?_, ?_⟩
  · intro hn
    subst hn
    obtain ⟨R, hR, hRr, hRc, hRw, hRcell⟩ :=
      mul_spec ⟨M.nrows, M.nrows, identData M.nrows⟩ M (ident_wf M.nrows)
        hM rfl
    have hRM : R = M := by
      apply data_ext R M (by rw [hRr]) (by rw [hRc]) hRw hM
      intro r c hr hc
      rw [hRr] at hr
      rw [hRc] at hc
      rw [hRc, hRcell r c hr hc]
      have hstep : ∀ k ∈ Finset.range M.nrows,
          (identData M.nrows).getD (r * M.nrows + k) 0 *
            M.data.getD (c + k * M.ncols) 0 =
          (if r = k then (1 : ℚ) else 0) * M.data.getD (c + k * M.ncols) 0 := by
        intro k hk
        rw [Finset.mem_range] at hk
        rw [identData_getD M.nrows r k hr hk]
      rw [Finset.sum_congr rfl hstep]
      simp only [ite_mul, one_mul, zero_mul]
      rw [Finset.sum_ite_eq (Finset.range M.nrows) r
        (fun k => M.data.getD (c + k * M.ncols) 0),
        if_pos (Finset.mem_range.mpr hr), Nat.add_comm c (r * M.ncols)]
    rw [hRM] at hR
    exact hR
  · intro hn
    subst hn
    obtain ⟨R, hR, hRr, hRc, hRw, hRcell⟩ :=
      mul_spec M ⟨M.ncols, M.ncols, identData M.ncols⟩ hM
        (ident_wf M.ncols) rfl
    have hRM : R = M := by
      apply data_ext R M (by rw [hRr]) (by rw [hRc]) hRw hM
      intro r c hr hc
      rw [hRr] at hr
      rw [hRc] at hc
      rw [hRc, hRcell r c hr hc]
      have hstep : ∀ k ∈ Finset.range M.ncols,
          M.data.getD (r * M.ncols + k) 0 *
            (identData M.ncols).getD (c + k * M.ncols) 0 =
          M.data.getD (r * M.ncols + k) 0 *
            (if k = c then (1 : ℚ) else 0) := by
        intro k hk
        rw [Finset.mem_range] at hk
        rw [Nat.add_comm c (k * M.ncols), identData_getD M.ncols k c hk hc]
      rw [Finset.sum_congr rfl hstep]
      simp only [mul_ite, mul_one, mul_zero]
      rw [Finset.sum_ite_eq' (Finset.range M.ncols) c
        (fun k => M.data.getD (r * M.ncols + k) 0),
        if_pos (Finset.mem_range.mpr hc)]
    rw [hRM] at hR
    exact hR

/-- Witness for C6 at concrete input (hypotheses discharged). -/
theorem claim6_ident_witness :
    Matrix.ident 2 = some ⟨2, 2, identData 2⟩ ∧
    Matrix.mul ⟨2, 2, identData 2⟩ ⟨2, 3, [1, 2, 3, 4, 5, 6]⟩ =
      some ⟨2, 3, [1, 2, 3, 4, 5, 6]⟩ := by
  have h := claim6_ident 2 ⟨2, 3, [1, 2, 3, 4, 5, 6]⟩ (by decide)
  exact ⟨h.1, h.2.2.1 rfl⟩

theorem sum_map_one {α : Type} (l : List α) :
    (l.map (fun _ => (1 : ℕ))).sum = l.length := by
  induction l with
  | nil => rfl
  | cons x xs ih =>
    simp [ih]
    omega

theorem empty_append_str (s : String) : "" ++ s = s := by
  apply String.ext
  rw [String.data_append]
  rfl

/-- C9: the display formatting produces the one-line
`Empty matrix (R by C)` message (no newline at all) when a dimension is 0;
otherwise a dimension header followed by exactly one line per column —
column-first despite row-major storage, the line for column `c` listing
`col_iter c` in order, each value rendered to two decimals and followed by
a space — and a closing brace, for `ncols + 1` newlines in total. -/
theorem claim9_display (m : Matrix) :
    (m.nrows = 0 ∨ m.ncols = 0 →
      m.display = "Empty matrix (" ++ natDigitsStr m.nrows ++ " by " ++
        natDigitsStr m.ncols ++ ")" ∧ countNL m.display = 0) ∧
    (0 < m.nrows → 0 < m.ncols →
      m.display = ("Matrix (" ++ natDigitsStr m.nrows ++ " by " ++
          natDigitsStr m.ncols ++ ") \x7b\n") ++
        String.join ((List.range m.ncols).map (fun c =>
          "  " ++ String.join ((m.col_iter c).map
            (fun d => fmtFixed2 d ++ " ")) ++ "\n")) ++ "\x7d" ∧
      countNL m.display = m.ncols + 1) := by
  constructor
  · intro h
    have hd : m.display = "Empty matrix (" ++ natDigitsStr m.nrows ++
        " by " ++ natDigitsStr m.ncols ++ ")" := by
      rw [Matrix.display, if_pos h]
    refine ⟨hd, ?_⟩
    rw [hd]
    simp only [countNL_append]
    rw [natDigitsStr_no_nl, natDigitsStr_no_nl]
    decide
  · intro h1 h2
    have hneg : ¬(m.nrows = 0 ∨ m.ncols = 0) := by omega
    have hinner : ∀ c : ℕ,
        ((stepBy m.ncols (m.data.drop c)).foldl
          (fun line d => line ++ fmtFixed2 d ++ " ") "") =
        String.join ((m.col_iter c).map (fun d => fmtFixed2 d ++ " ")) := by
      intro c
      have hf2 : (fun (line : String) (d : ℚ) =>
          line ++ fmtFixed2 d ++ " ") =
          (fun line d => line ++ (fmtFixed2 d ++ " ")) := by
        funext line d
        rw [String.append_assoc]
      rw [hf2, foldl_append_eq_join (fun d => fmtFixed2 d ++ " ") _ (""),
        empty_append_str, Matrix.col_iter]
    have hfun : (fun (acc : String) (c : ℕ) =>
        acc ++ "  " ++
          ((stepBy m.ncols (m.data.drop c)).foldl
            (fun line d => line ++ fmtFixed2 d ++ " ") "") ++ "\n") =
        (fun acc c => acc ++ ("  " ++
          String.join ((m.col_iter c).map
            (fun d => fmtFixed2 d ++ " ")) ++ "\n")) := by
      funext acc c
      rw [hinner c, String.append_assoc acc ("  ") _,
        String.append_assoc acc _ ("\n")]
    have hd : m.display = ("Matrix (" ++ natDigitsStr m.nrows ++ " by " ++
        natDigitsStr m.ncols ++ ") \x7b\n") ++
        String.join ((List.range m.ncols).map (fun c =>
          "  " ++ String.join ((m.col_iter c).map
            (fun d => fmtFixed2 d ++ " ")) ++ "\n")) ++ "\x7d" := by
      rw [Matrix.display, if_neg hneg, hfun,
        foldl_append_eq_join
          (fun c => "  " ++ String.join ((m.col_iter c).map
            (fun d => fmtFixed2 d ++ " ")) ++ "\n") (List.range m.ncols)
          (""),
        empty_append_str]
    refine ⟨hd, ?_⟩
    rw [hd]
    simp only [countNL_append]
    rw [natDigitsStr_no_nl, natDigitsStr_no_nl, countNL_join_map]
    have hone : ((List.range m.ncols).map (fun c =>
        countNL ("  " ++ String.join ((m.col_iter c).map
          (fun d => fmtFixed2 d ++ " ")) ++ "\n"))) =
        (List.range m.ncols).map (fun _ => (1 : ℕ)) := by
      apply List.map_congr_left
      intro c _
      simp only [countNL_append]
      rw [countNL_join_map]
      have hz : ((m.col_iter c).map
          (fun d => countNL (fmtFixed2 d ++ " "))).sum = 0 := by
        apply List.sum_eq_zero
        intro x hx
        rw [List.mem_map] at hx
        obtain ⟨d, _, hdx⟩ := hx
        rw [← hdx, countNL_append, fmtFixed2_no_nl]
        decide
      rw [hz]
      decide
    rw [hone, sum_map_one, List.length_range]
    have c1 : countNL ("Matrix (") = 0 := by decide
    have c2 : countNL (" by ") = 0 := by decide
    have c3 : countNL (") \x7b\n") = 1 := by decide
    have c4 : countNL ("\x7d") = 0 := by decide
    rw [c1, c2, c3, c4]
    omega

/-- Witness for C9 at concrete input (hypotheses discharged). -/
theorem claim9_display_witness :
    Matrix.display ⟨0, 3, []⟩ = "Empty matrix (" ++ natDigitsStr 0 ++
      " by " ++ natDigitsStr 3 ++ ")" ∧
    countNL (Matrix.display ⟨0, 3, []⟩) = 0 :=
  (claim9_display ⟨0, 3, []⟩).1 (Or.inl rfl)

end Graphics
